import Mathlib

/-!
# Verification of the tdist task-runner core

Shallow embedding of the task execution engine and worker-pool scheduling
protocol of the `tdist` repository (`src/task.rs`, `src/task_file.rs`,
`src/main.rs`), together with theorems settling the specification claims.

The effectful parts are modelled as follows:

* A shell invocation's observable outcome is a `CmdResult` (launch error or
  exit code); an execution environment `env : Nat → CmdResult` assigns each
  command (by its position in the task's command list) the outcome of its
  invocation in one iteration, and `env : Nat → Nat → CmdResult` assigns
  outcomes per iteration for whole-task runs.
* The worker thread's observable behaviour while executing one iteration is a
  trace of `Event`s: spawning a parallel command's thread, starting/finishing
  a sequential command, and joining a parallel command's thread.  `seqFinish`
  and `join` record whether the failure check at that point was fatal.
* The unbounded `while` loop of `Task::run` is given explicit fuel; returning
  `none` means the loop was still running after `fuel` iterations.
-/

deriving instance DecidableEq for Except

namespace Tdist

/-- Outcome of one `std::process::Command::status()` call: the interpreter
process failed to launch, or it ran and exited with the given code. -/
inductive CmdResult where
  | launchErr (msg : String)
  | exited (code : Nat)
deriving Repr, DecidableEq

/-- `src/task.rs`: `enum Command { Shell { command, ignore_failure, parallel } }`. -/
inductive Command where
  | Shell (command : String) (ignore_failure : Bool) (parallel : Bool)
deriving Repr, DecidableEq

def Command.command : Command → String
  | .Shell c _ _ => c

def Command.ignoreFailure : Command → Bool
  | .Shell _ i _ => i

def Command.isParallel : Command → Bool
  | .Shell _ _ p => p

/-- One observable step taken by `Task::run_commands` on the worker thread.
`spawn i` = `std::thread::spawn` for parallel command `i`; `seqStart i` /
`seqFinish i fatal` = a sequential command `i` starting and its `status()`
call returning (with `fatal` recording whether the non-ignored-failure check
fired); `seqLaunchFail i` = the sequential `status()?` call failing to launch;
`join i fatal` = `handle.join()` for parallel command `i` returning (with
`fatal` recording whether the joined thread's result was an error). -/
inductive Event where
  | spawn (i : Nat)
  | seqStart (i : Nat)
  | seqLaunchFail (i : Nat)
  | seqFinish (i : Nat) (fatal : Bool)
  | join (i : Nat) (fatal : Bool)
deriving Repr, DecidableEq

def Event.idx : Event → Nat
  | .spawn i => i
  | .seqStart i => i
  | .seqLaunchFail i => i
  | .seqFinish i _ => i
  | .join i _ => i

/-- Result returned by the closure of a parallel command's thread
(`src/task.rs` lines 52-70): a launch error propagates via `map_err`/`?`
before the `ignore_failure` check; otherwise `ignore_failure` turns any exit
status into `Ok`, and a non-ignored non-zero exit is an error naming the
command and status. -/
def parOutcome (r : CmdResult) (ignoreF : Bool) (cmd : String) : Except String Unit :=
  match r with
  | .launchErr e => .error e
  | .exited code =>
    if ignoreF then .ok ()
    else if code != 0 then
      .error ("Command `" ++ cmd ++ "` failed: exit status: " ++ toString code)
    else .ok ()

/-- The sequential failure check (`src/task.rs` lines 84-88):
`if *ignore_failure { } else if !status.success() { return Err(..) }`. -/
def seqFatalCheck (c : Command) (code : Nat) : Bool :=
  !c.ignoreFailure && code != 0

/-- `for handle in handles.drain(..) { handle.join().unwrap()? }`
(`src/task.rs` lines 90-92 and 98-100): join pending parallel handles in
spawn order; the first erroring join propagates via `?`, and the remaining
drained handles are dropped without being joined. -/
def joinAll (env : Nat → CmdResult) : List (Nat × Command) → List Event × Except String Unit
  | [] => ([], .ok ())
  | (j, c) :: rest =>
    match parOutcome (env j) c.ignoreFailure c.command with
    | .error e => ([.join j true], .error e)
    | .ok () =>
      let (tr, r) := joinAll env rest
      (.join j false :: tr, r)

/-- The body of `Task::run_commands` (`src/task.rs` lines 35-103), processing
the remaining `(index, command)` pairs with the current `handles` list
(`pending`).  A parallel command is spawned and pushed onto `pending`; a
sequential command runs to completion first, then its failure check runs,
and only then is the pending barrier group joined; an early `return Err`
leaves `pending` unjoined. -/
def runCmdsAux (env : Nat → CmdResult) :
    List (Nat × Command) → List (Nat × Command) → List Event × Except String Unit
  | [], pending => joinAll env pending
  | (i, c) :: rest, pending =>
    if c.isParallel then
      let (tr, r) := runCmdsAux env rest (pending ++ [(i, c)])
      (.spawn i :: tr, r)
    else
      match env i with
      | .launchErr e => ([.seqStart i, .seqLaunchFail i], .error e)
      | .exited code =>
        if seqFatalCheck c code then
          ([.seqStart i, .seqFinish i true],
            .error ("Command `" ++ c.command ++ "` failed: exit status: " ++ toString code))
        else
          match joinAll env pending with
          | (jtr, .error e) => (.seqStart i :: .seqFinish i false :: jtr, .error e)
          | (jtr, .ok ()) =>
            let (tr, r) := runCmdsAux env rest []
            (.seqStart i :: .seqFinish i false :: (jtr ++ tr), r)

/-- Index the commands of a task by position, starting at `n`. -/
def enumFrom : Nat → List Command → List (Nat × Command)
  | _, [] => []
  | n, c :: cs => (n, c) :: enumFrom (n + 1) cs

/-- `Task::run_commands` for one iteration: process the whole command list
with an initially empty `handles` vector, returning the worker-thread event
trace and the iteration's result. -/
def run_commands (env : Nat → CmdResult) (cmds : List Command) :
    List Event × Except String Unit :=
  runCmdsAux env (enumFrom 0 cmds) []

/-- `struct Task` (`src/task.rs` lines 5-10). -/
structure Task where
  id : Int
  name : String
  repeats : Nat
  commands : List Command
deriving Repr, DecidableEq

/-- The `while is_infinite || repeat > 0` loop of `Task::run`
(`src/task.rs` lines 22-33), with explicit fuel.  `iter` numbers the
iterations (selecting each iteration's outcomes from `env`), `rep` is the
remaining repeat counter; `rep - 1` on `Nat` is exactly `saturating_sub(1)`.
Returns `none` when the loop is still running after `fuel` iterations,
otherwise the per-iteration traces and the loop's result. -/
def runLoop (env : Nat → Nat → CmdResult) (cmds : List Command) (isInf : Bool) :
    Nat → Nat → Nat → Option (List (List Event) × Except String Unit)
  | 0, _, rep =>
    if isInf || 0 < rep then none else some ([], .ok ())
  | fuel + 1, iter, rep =>
    if isInf || 0 < rep then
      match run_commands (env iter) cmds with
      | (tr, .error e) => some ([tr], .error e)
      | (tr, .ok ()) =>
        (runLoop env cmds isInf fuel (iter + 1) (rep - 1)).map fun p => (tr :: p.1, p.2)
    else some ([], .ok ())

/-- `Task::run`: `is_infinite` is computed once from the initial repeat
count, then the loop runs. -/
def Task.run (t : Task) (env : Nat → Nat → CmdResult) (fuel : Nat) :
    Option (List (List Event) × Except String Unit) :=
  runLoop env t.commands (t.repeats == 0) fuel 0 t.repeats
/-- `struct TaskFileCommand` (`src/task_file.rs` lines 28-37): `shell` is an
`Option<String>`, the two flags default to `false`. -/
structure TaskFileCommand where
  shell : Option String
  ignoreFailure : Bool
  isParallel : Bool
deriving Repr, DecidableEq

/-- `struct TaskFile` (`src/task_file.rs` lines 10-17); `repeats` models the
`repeat` field (a `Repeat(usize)`, defaulting to 1 when absent). -/
structure TaskFile where
  name : String
  repeats : Nat
  commands : List TaskFileCommand
deriving Repr, DecidableEq

/-- `impl From<TaskFileCommand> for Command` (`src/task.rs` lines 114-126):
a command record with no shell text hits `panic!()`, modelled as `none`. -/
def commandOfTaskFileCommand (tc : TaskFileCommand) : Option Command :=
  match tc.shell with
  | some c => some (.Shell c tc.ignoreFailure tc.isParallel)
  | none => none

/-- `task_file.commands.into_iter().map(Into::into).collect()`: converting
every command record, propagating the panic (`none`) of any record without
shell text. -/
def commandsOfTaskFile : List TaskFileCommand → Option (List Command)
  | [] => some []
  | tc :: rest =>
    match commandOfTaskFileCommand tc with
    | none => none
    | some c =>
      match commandsOfTaskFile rest with
      | none => none
      | some cs => some (c :: cs)

/-- Wrapping arithmetic of an `AtomicI32`: reduce into `[-2^31, 2^31)`. -/
def wrap32 (n : Int) : Int := (n + 2 ^ 31) % 2 ^ 32 - 2 ^ 31

/-- `Task::from_task_file` (`src/task.rs` lines 13-20): the id is the value
`fetch_add(1, SeqCst)` returns (the counter before the increment), the stored
counter wraps as an `i32`; converting the commands panics (`none`) if any
lacks shell text. -/
def from_task_file (tf : TaskFile) (next : Int) : Option Task × Int :=
  (match commandsOfTaskFile tf.commands with
   | some cs => some { id := next, name := tf.name, repeats := tf.repeats, commands := cs }
   | none => none,
   wrap32 (next + 1))

/-- What `run` (`src/main.rs`) observes for one entry of the taskfile
directory: reading the file failed, `toml::from_str` failed, or it decoded
into a `TaskFile`. -/
inductive FileData where
  | unreadable (e : String)
  | undecodable (e : String)
  | parsed (tf : TaskFile)
deriving Repr, DecidableEq

/-- A directory entry decodes all the way to a `Task` (readable, valid toml,
and every command has its shell text, so the `From` conversion cannot
panic). -/
def decodesOK : FileData → Bool
  | .parsed tf => (commandsOfTaskFile tf.commands).isSome
  | _ => false

/-- Externally visible actions of the startup function `run`
(`src/main.rs` lines 121-164): spawning a worker thread, and pushing a
created task onto the shared queue. -/
inductive StartupEvent where
  | workerStarted (i : Nat)
  | taskPushed (id : Int) (nm : String)
deriving Repr, DecidableEq

/-- The `for file in files` loop of `run` (`src/main.rs` lines 146-155):
each file is read (`?`), decoded (`?`), converted (panicking on a command
with no shell text), and the resulting task is pushed immediately. -/
def pushLoop : List FileData → Int → List StartupEvent × Except String Unit
  | [], _ => ([], .ok ())
  | f :: rest, next =>
    match f with
    | .unreadable e => ([], .error e)
    | .undecodable e => ([], .error e)
    | .parsed tf =>
      match from_task_file tf next with
      | (none, _) => ([], .error "panicked converting a command with no shell text")
      | (some t, next') =>
        let (tr, r) := pushLoop rest next'
        (.taskPushed t.id t.name :: tr, r)

/-- `run` (`src/main.rs` lines 121-164): the worker threads are started
first, then the taskfile directory is listed (`dir` is `.error` when
`get_task_files` fails), then the files are loaded and pushed one by one
with the id counter starting at 0.  The function's trace and result. -/
def startup (threads : Nat) (dir : Except String (List FileData)) :
    List StartupEvent × Except String Unit :=
  let wtr := (List.range threads).map StartupEvent.workerStarted
  match dir with
  | .error e => (wtr, .error e)
  | .ok files =>
    let (tr, r) := pushLoop files 0
    (wtr ++ tr, r)

/-- Worker-loop state of `task_stealer` (`src/main.rs` lines 175-210):
the `Backoff` (abstracted to the number of accumulated spin steps) and the
`should_print_warning` flag. -/
structure WorkerState where
  backoffSteps : Nat
  shouldPrintWarning : Bool
deriving Repr, DecidableEq

/-- One `stealer.steal()` outcome; `success` carries the stolen task together
with the value its `task.run()` call returns. -/
inductive Steal where
  | empty
  | success (t : Task) (res : Except String Unit)
  | retry
deriving DecidableEq

/-- Log events emitted by `task_stealer`. -/
inductive WLog where
  | waiting
  | runningTask (id : Int) (nm : String)
  | taskError (e : String)
  | finishedTask (id : Int)
  | retrying
deriving Repr, DecidableEq

/-- One arm of the `match task` in `task_stealer` (`src/main.rs`
lines 182-208): `Empty` logs the waiting notice once and spins the backoff;
`Success` runs the task, logs its error if it returns one, then resets the
backoff and re-arms the warning; `Retry` logs a warning and continues. -/
def task_stealer_step (st : WorkerState) (s : Steal) : WorkerState × List WLog :=
  match s with
  | .empty =>
    if st.shouldPrintWarning then
      ({ backoffSteps := st.backoffSteps + 1, shouldPrintWarning := false }, [.waiting])
    else
      ({ backoffSteps := st.backoffSteps + 1, shouldPrintWarning := false }, [])
  | .success t res =>
    ({ backoffSteps := 0, shouldPrintWarning := true },
      [.runningTask t.id t.name] ++
        (match res with
         | .error e => [.taskError e]
         | .ok () => []) ++
        [.finishedTask t.id])
  | .retry => (st, [.retrying])

/-- The unbounded `loop` of `task_stealer`, applied to a finite script of
steal outcomes: the worker processes every outcome in order, accumulating
the emitted log events.  It is a total function: no steal outcome and no
task result can terminate it. -/
def task_stealer (st : WorkerState) : List Steal → WorkerState × List WLog
  | [] => (st, [])
  | s :: rest =>
    let p := task_stealer_step st s
    let q := task_stealer p.1 rest
    (q.1, p.2 ++ q.2)
/-! ## Trace predicates used to state the claims -/

/-- Indexes of the parallel commands spawned in a trace, in spawn order. -/
def spawnIdxs (tr : List Event) : List Nat :=
  tr.filterMap fun e =>
    match e with
    | .spawn j => some j
    | _ => none

/-- Indexes of the parallel commands joined in a trace, in join order. -/
def joinIdxs (tr : List Event) : List Nat :=
  tr.filterMap fun e =>
    match e with
    | .join j _ => some j
    | _ => none

def isSeqStart : Event → Bool
  | .seqStart _ => true
  | _ => false

/-- Formalisation of claim C1: at every point of the trace where a sequential
command starts, every parallel command spawned earlier in the iteration has
already been joined. -/
def joinedBeforeSeqStart (tr : List Event) : Bool :=
  (List.range tr.length).all fun q =>
    if isSeqStart (tr.getD q (.spawn 0)) then
      (spawnIdxs (tr.take q)).all fun j => (joinIdxs (tr.take q)).contains j
    else true

/-- State of the barrier-discipline scanner: `old` holds the indexes of
parallel commands spawned before the most recent sequential-command
completion and not yet joined, `new` those spawned after it, and `ok`
records whether every sequential-command start seen so far found `old`
empty. -/
structure ScanSt where
  old : List Nat
  new : List Nat
  ok : Bool
deriving Repr, DecidableEq

def scanStep (st : ScanSt) (e : Event) : ScanSt :=
  match e with
  | .spawn j => { st with new := st.new ++ [j] }
  | .seqStart _ => { st with ok := st.ok && st.old.isEmpty }
  | .seqLaunchFail _ => st
  | .seqFinish _ _ => { st with old := st.old ++ st.new, new := [] }
  | .join j _ => { st with old := st.old.erase j, new := st.new.erase j }

/-- Scan a whole trace for the amended barrier discipline: every parallel
command spawned before the previous sequential command's completion is
joined before the next sequential command starts. -/
def scanBarrier (tr : List Event) : ScanSt :=
  tr.foldl scanStep ⟨[], [], true⟩

/-- An event at which `run_commands` observes a fatal (non-ignored) failure:
a sequential launch failure, a sequential completion whose failure check
fired, or a join that returned an error. -/
def isFatalEv : Event → Bool
  | .seqLaunchFail _ => true
  | .seqFinish _ fatal => fatal
  | .join _ fatal => fatal
  | _ => false

/-- No event of any kind follows a fatal event in the trace. -/
def noEventAfterFatal : List Event → Bool
  | [] => true
  | e :: tr => if isFatalEv e then tr.isEmpty else noEventAfterFatal tr

/-- Formalisation of claim C2: whenever an iteration returns an error, every
parallel command spawned in it has been joined. -/
def allSpawnsJoinedOnError (env : Nat → CmdResult) (cmds : List Command) : Bool :=
  match run_commands env cmds with
  | (tr, .error _) => (spawnIdxs tr).all fun j => (joinIdxs tr).contains j
  | (_, .ok ()) => true

/-- Formalisation of claim C3: whenever startup returns an error, its trace
is empty — no worker was started and no task was pushed to the queue. -/
def startupAbortsCleanly (threads : Nat) (dir : Except String (List FileData)) : Bool :=
  match startup threads dir with
  | (tr, .error _) => tr.isEmpty
  | (_, .ok ()) => true

/-- Task identifiers pushed during startup, in push order. -/
def pushedIds (tr : List StartupEvent) : List Int :=
  tr.filterMap fun e =>
    match e with
    | .taskPushed i _ => some i
    | _ => none

/-- An event that invokes a command: spawning its thread (parallel) or
starting it on the worker thread (sequential). -/
def isInvocation : Event → Bool
  | .spawn _ => true
  | .seqStart _ => true
  | _ => false

def isJoin : Event → Bool
  | .join _ _ => true
  | _ => false

/-- Overriding one command's outcome in an iteration environment. -/
def updEnv (env : Nat → CmdResult) (i : Nat) (r : CmdResult) : Nat → CmdResult :=
  fun j => if j = i then r else env j

/-- Overriding one command's outcome in one iteration of a task-level
environment. -/
def updEnv2 (env : Nat → Nat → CmdResult) (k i : Nat) (r : CmdResult) :
    Nat → Nat → CmdResult :=
  fun k' => if k' = k then updEnv (env k) i r else env k'
/-! ## Concrete inputs used by counterexamples and witnesses -/

/-- The spec's C1 example: parallel A, parallel B, sequential C. -/
def cmdsParParSeq : List Command :=
  [.Shell "A" false true, .Shell "B" false true, .Shell "C" false false]

/-- Every invocation launches and exits 0. -/
def envAllOk : Nat → CmdResult := fun _ => .exited 0

/-- A parallel command followed by a sequential command that fails. -/
def cmdsParThenFail : List Command :=
  [.Shell "sleep 1" false true, .Shell "false" false false]

/-- Command 1 exits 1; everything else exits 0. -/
def envIdx1Fails : Nat → CmdResult := fun i => if i = 1 then .exited 1 else .exited 0

/-- The spec's C5 example: sequential X always failing, then sequential Y. -/
def cmdsFailThenSeq : List Command :=
  [.Shell "false" false false, .Shell "echo y" false false]

/-- Command 0 exits 1; everything else exits 0. -/
def envIdx0Fails : Nat → CmdResult := fun i => if i = 0 then .exited 1 else .exited 0

/-- The spec's repeat-3 example: a single always-failing non-ignored command. -/
def taskRepeat3 : Task :=
  { id := 0, name := "t", repeats := 3, commands := [.Shell "false" false false] }

/-- A task with two iterations of one succeeding command. -/
def taskRepeat2 : Task :=
  { id := 0, name := "t", repeats := 2, commands := [.Shell "echo hi" false false] }

/-- Per-iteration environment in which every invocation exits 0. -/
def env2AllOk : Nat → Nat → CmdResult := fun _ _ => .exited 0

/-- Per-iteration environment in which every invocation exits 1. -/
def env2AllFail : Nat → Nat → CmdResult := fun _ _ => .exited 1

/-- A taskfile that decodes fine. -/
def tfGood : TaskFile :=
  { name := "good", repeats := 1, commands := [⟨some "echo hi", false, false⟩] }

/-- A directory whose first entry decodes and whose second is invalid toml. -/
def filesGoodThenBad : List FileData :=
  [.parsed tfGood, .undecodable "invalid toml"]

/-- Three well-formed directory entries. -/
def filesThreeGood : List FileData :=
  [.parsed tfGood, .parsed { name := "g2", repeats := 0, commands := [] },
   .parsed { name := "g3", repeats := 2, commands := [⟨some "true", true, true⟩] }]

/-- A task with an `ignore_failure` command between two others. -/
def cmdsIgnoreMid : List Command :=
  [.Shell "echo a" false false, .Shell "false" true false, .Shell "echo b" false false]

/-! ## Lemmas about `joinAll` -/

theorem scan_joinAll_flag (env : Nat → CmdResult) :
    ∀ (pending : List (Nat × Command)) (st : ScanSt),
      ((joinAll env pending).1.foldl scanStep st).ok = st.ok := by
  intro pending
  induction pending with
  | nil => intro st; simp [joinAll]
  | cons p rest ih =>
    intro st
    obtain ⟨j, c⟩ := p
    rcases hpar : parOutcome (env j) c.ignoreFailure c.command with e | u
    · simp [joinAll, hpar, scanStep]
    · cases u
      rcases hj : joinAll env rest with ⟨tr, r⟩
      have := ih { st with old := st.old.erase j, new := st.new.erase j }
      rw [hj] at this
      simp [joinAll, hpar, hj, scanStep, this]

theorem scan_joinAll_success (env : Nat → CmdResult) :
    ∀ (pending : List (Nat × Command)) (b : Bool),
      (joinAll env pending).2 = .ok () →
      (joinAll env pending).1.foldl scanStep ⟨pending.map Prod.fst, [], b⟩
        = (⟨[], [], b⟩ : ScanSt) := by
  intro pending
  induction pending with
  | nil => intro b _; simp [joinAll]
  | cons p rest ih =>
    intro b hok
    obtain ⟨j, c⟩ := p
    rcases hpar : parOutcome (env j) c.ignoreFailure c.command with e | u
    · rw [joinAll] at hok
      simp [hpar] at hok
    · cases u
      rcases hj : joinAll env rest with ⟨tr, r⟩
      rw [joinAll] at hok
      simp only [hpar, hj] at hok
      have := ih b (by rw [hj]; exact hok)
      rw [hj] at this
      simp [joinAll, hpar, hj, scanStep, this]

theorem joinAll_noFatal_of_ok (env : Nat → CmdResult) :
    ∀ (pending : List (Nat × Command)),
      (joinAll env pending).2 = .ok () →
      ∀ e ∈ (joinAll env pending).1, isFatalEv e = false := by
  intro pending
  induction pending with
  | nil => intro _ e he; simp [joinAll] at he
  | cons p rest ih =>
    intro hok e he
    obtain ⟨j, c⟩ := p
    rcases hpar : parOutcome (env j) c.ignoreFailure c.command with e' | u
    · rw [joinAll] at hok; simp [hpar] at hok
    · cases u
      rcases hj : joinAll env rest with ⟨tr, r⟩
      rw [joinAll] at hok he
      simp only [hpar, hj] at hok he
      rw [List.mem_cons] at he
      rcases he with he | he
      · subst he; rfl
      · exact ih (by rw [hj]; exact hok) e (by rw [hj]; exact he)

theorem joinAll_noEventAfterFatal (env : Nat → CmdResult) :
    ∀ (pending : List (Nat × Command)),
      noEventAfterFatal (joinAll env pending).1 = true := by
  intro pending
  induction pending with
  | nil => simp [joinAll, noEventAfterFatal]
  | cons p rest ih =>
    obtain ⟨j, c⟩ := p
    rcases hpar : parOutcome (env j) c.ignoreFailure c.command with e | u
    · simp [joinAll, hpar, noEventAfterFatal, isFatalEv]
    · cases u
      rcases hj : joinAll env rest with ⟨tr, r⟩
      rw [hj] at ih
      simp [joinAll, hpar, hj, noEventAfterFatal, isFatalEv, ih]

theorem joinAll_error_mem (env : Nat → CmdResult) :
    ∀ (pending : List (Nat × Command)) (e : String),
      (joinAll env pending).2 = .error e →
      ∃ ev ∈ (joinAll env pending).1, isFatalEv ev = true := by
  intro pending
  induction pending with
  | nil => intro e he; simp [joinAll] at he
  | cons p rest ih =>
    intro e he
    obtain ⟨j, c⟩ := p
    rcases hpar : parOutcome (env j) c.ignoreFailure c.command with e' | u
    · refine ⟨.join j true, ?_, rfl⟩
      simp [joinAll, hpar]
    · cases u
      rcases hj : joinAll env rest with ⟨tr, r⟩
      rw [joinAll] at he
      simp only [hpar, hj] at he
      obtain ⟨ev, hev, hfat⟩ := ih e (by rw [hj]; exact he)
      rw [hj] at hev
      exact ⟨ev, by simp [joinAll, hpar, hj, hev], hfat⟩

theorem joinAll_only_joins (env : Nat → CmdResult) :
    ∀ (pending : List (Nat × Command)),
      ∀ e ∈ (joinAll env pending).1, isJoin e = true := by
  intro pending
  induction pending with
  | nil => intro e he; simp [joinAll] at he
  | cons p rest ih =>
    intro e he
    obtain ⟨j, c⟩ := p
    rcases hpar : parOutcome (env j) c.ignoreFailure c.command with e' | u
    · rw [joinAll] at he
      simp only [hpar] at he
      simp at he
      subst he; rfl
    · cases u
      rcases hj : joinAll env rest with ⟨tr, r⟩
      rw [joinAll] at he
      simp only [hpar, hj] at he
      rw [List.mem_cons] at he
      rcases he with he | he
      · subst he; rfl
      · exact ih e (by rw [hj]; exact he)
/-! ## The barrier discipline actually implemented by `run_commands` -/

theorem scan_runCmdsAux (env : Nat → CmdResult) :
    ∀ (l pending : List (Nat × Command)) (b : Bool),
      ((runCmdsAux env l pending).1.foldl scanStep ⟨[], pending.map Prod.fst, b⟩).ok = b := by
  intro l
  induction l with
  | nil =>
    intro pending b
    have h1 := scan_joinAll_flag env pending ⟨[], pending.map Prod.fst, b⟩
    simpa [runCmdsAux] using h1
  | cons p rest ih =>
    intro pending b
    obtain ⟨i, c⟩ := p
    by_cases hp : c.isParallel
    · rcases ha : runCmdsAux env rest (pending ++ [(i, c)]) with ⟨tr, r⟩
      have h1 := ih (pending ++ [(i, c)]) b
      rw [ha] at h1
      simp only [runCmdsAux, hp, if_true, ha]
      simpa [scanStep, List.map_append] using h1
    · rcases henv : env i with e | code
      · simp [runCmdsAux, hp, henv, scanStep]
      · by_cases hf : seqFatalCheck c code
        · simp [runCmdsAux, hp, henv, hf, scanStep]
        · rcases hj : joinAll env pending with ⟨jtr, jr⟩
          rcases jr with e | u
          · have h1 := scan_joinAll_flag env pending ⟨pending.map Prod.fst, [], b⟩
            rw [hj] at h1
            simp only [runCmdsAux, hp, henv, hf, hj]
            simpa [scanStep] using h1
          · cases u
            have h2 := scan_joinAll_success env pending b (by rw [hj])
            rw [hj] at h2
            rcases ha : runCmdsAux env rest [] with ⟨tr2, r2⟩
            have h3 := ih [] b
            rw [ha] at h3
            simp only [runCmdsAux, hp, henv, hf, hj, ha]
            simpa [scanStep, List.foldl_append, h2] using h3

theorem run_commands_scan (env : Nat → CmdResult) (cmds : List Command) :
    (scanBarrier (run_commands env cmds).1).ok = true := by
  have h1 := scan_runCmdsAux env (enumFrom 0 cmds) [] true
  simpa [scanBarrier, run_commands] using h1
/-! ## Truncation at the first fatal failure -/

theorem noEventAfterFatal_append (A B : List Event)
    (h : ∀ e ∈ A, isFatalEv e = false) :
    noEventAfterFatal (A ++ B) = noEventAfterFatal B := by
  induction A with
  | nil => rfl
  | cons e A ih =>
    have he := h e (List.mem_cons_self e A)
    simp only [List.cons_append, noEventAfterFatal, he]
    simpa using ih fun x hx => h x (List.mem_cons_of_mem _ hx)

theorem runCmdsAux_noEventAfterFatal (env : Nat → CmdResult) :
    ∀ (l pending : List (Nat × Command)),
      noEventAfterFatal (runCmdsAux env l pending).1 = true := by
  intro l
  induction l with
  | nil =>
    intro pending
    simpa [runCmdsAux] using joinAll_noEventAfterFatal env pending
  | cons p rest ih =>
    intro pending
    obtain ⟨i, c⟩ := p
    by_cases hp : c.isParallel
    · rcases ha : runCmdsAux env rest (pending ++ [(i, c)]) with ⟨tr, r⟩
      have h1 := ih (pending ++ [(i, c)])
      rw [ha] at h1
      simp only [runCmdsAux, hp, if_true, ha]
      simpa [noEventAfterFatal, isFatalEv] using h1
    · rcases henv : env i with e | code
      · simp [runCmdsAux, hp, henv, noEventAfterFatal, isFatalEv]
      · by_cases hf : seqFatalCheck c code
        · simp [runCmdsAux, hp, henv, hf, noEventAfterFatal, isFatalEv]
        · rcases hj : joinAll env pending with ⟨jtr, jr⟩
          rcases jr with e | u
          · have h1 := joinAll_noEventAfterFatal env pending
            rw [hj] at h1
            simp only [runCmdsAux, hp, henv, hf, hj]
            simpa [noEventAfterFatal, isFatalEv] using h1
          · cases u
            rcases ha : runCmdsAux env rest [] with ⟨tr2, r2⟩
            have h1 := ih []
            rw [ha] at h1
            have h2 : ∀ e ∈ jtr, isFatalEv e = false := by
              have := joinAll_noFatal_of_ok env pending (by rw [hj])
              rw [hj] at this
              exact this
            simp only [runCmdsAux, hp, henv, hf, hj, ha]
            simp only [noEventAfterFatal, isFatalEv]
            simpa [noEventAfterFatal_append jtr tr2 h2] using h1

theorem runCmdsAux_error_mem (env : Nat → CmdResult) :
    ∀ (l pending : List (Nat × Command)) (e : String),
      (runCmdsAux env l pending).2 = .error e →
      ∃ ev ∈ (runCmdsAux env l pending).1, isFatalEv ev = true := by
  intro l
  induction l with
  | nil =>
    intro pending e he
    have h1 := joinAll_error_mem env pending e (by simpa [runCmdsAux] using he)
    simpa [runCmdsAux] using h1
  | cons p rest ih =>
    intro pending e he
    obtain ⟨i, c⟩ := p
    by_cases hp : c.isParallel
    · rcases ha : runCmdsAux env rest (pending ++ [(i, c)]) with ⟨tr, r⟩
      rw [runCmdsAux] at he ⊢
      simp only [hp, if_true, ha] at he ⊢
      obtain ⟨ev, hev, hfat⟩ := ih (pending ++ [(i, c)]) e (by rw [ha]; exact he)
      rw [ha] at hev
      exact ⟨ev, List.mem_cons_of_mem _ hev, hfat⟩
    · rcases henv : env i with e' | code
      · refine ⟨.seqLaunchFail i, ?_, rfl⟩
        simp [runCmdsAux, hp, henv]
      · by_cases hf : seqFatalCheck c code
        · refine ⟨.seqFinish i true, ?_, rfl⟩
          simp [runCmdsAux, hp, henv, hf]
        · rcases hj : joinAll env pending with ⟨jtr, jr⟩
          rcases jr with e' | u
          · obtain ⟨ev, hev, hfat⟩ := joinAll_error_mem env pending e' (by rw [hj])
            rw [hj] at hev
            refine ⟨ev, ?_, hfat⟩
            simp [runCmdsAux, hp, henv, hf, hj, hev]
          · cases u
            rcases ha : runCmdsAux env rest [] with ⟨tr2, r2⟩
            rw [runCmdsAux] at he
            simp only [hp, henv, hf, hj, ha] at he
            simp at he
            obtain ⟨ev, hev, hfat⟩ := ih [] e (by rw [ha]; simpa using he)
            rw [ha] at hev
            refine ⟨ev, ?_, hfat⟩
            simp [runCmdsAux, hp, henv, hf, hj, ha, hev]
/-! ## Claim C1 -/

/-- C1 (counterexample): the claim "before a sequential command starts
executing, every previously launched parallel command of the currently
accumulated barrier group has been joined to completion" is false for the
spec's own example `[parallel A, parallel B, sequential C]` with every
command succeeding: in the code's trace, C starts (`seqStart 2`) while the
spawned commands 0 and 1 are still unjoined. -/
theorem C1_counterexample :
    joinedBeforeSeqStart (run_commands envAllOk cmdsParParSeq).1 = false := by
  decide

/-- C1 (amended): a sequential command does not wait for the accumulated
barrier group before starting; instead the group is joined immediately after
the sequential command itself completes its execution, before any later
command of the iteration starts.  Formally: scanning any iteration trace,
every parallel command spawned before the most recent sequential-command
completion is joined before the next sequential command starts
(`scanBarrier`); and on the spec's example the trace is
spawn A, spawn B, run C to completion, then join A, join B. -/
theorem C1_barrier_joined_after_sequential :
    (∀ (env : Nat → CmdResult) (cmds : List Command),
      (scanBarrier (run_commands env cmds).1).ok = true)
    ∧ (run_commands envAllOk cmdsParParSeq).1
        = [.spawn 0, .spawn 1, .seqStart 2, .seqFinish 2 false,
           .join 0 false, .join 1 false] :=
  ⟨run_commands_scan, by decide⟩

/-! ## Claim C2 -/

/-- C2 (counterexample): the claim "when an iteration produces a fatal
failure, every parallel command already launched in that iteration is still
joined to completion before the task's execution returns its error" is false:
for `[parallel sleep, sequential false]` where the sequential command exits 1,
`run_commands` returns its error with the spawned command 0 never joined. -/
theorem C2_counterexample :
    allSpawnsJoinedOnError envIdx1Fails cmdsParThenFail = false := by
  decide

/-- C2 (amended): when an iteration produces a fatal (non-ignored) failure,
`run_commands` returns the error immediately: no event of any kind follows
the fatal event in the iteration's trace, so parallel commands launched but
not yet joined at that point are never joined (their threads are leaked, not
awaited).  Every error result does come from such a fatal event.  On the
concrete example, the spawned parallel command 0 is left unjoined. -/
theorem C2_fatal_failure_skips_pending_joins :
    (∀ (env : Nat → CmdResult) (cmds : List Command),
      noEventAfterFatal (run_commands env cmds).1 = true)
    ∧ (∀ (env : Nat → CmdResult) (cmds : List Command) (e : String),
        (run_commands env cmds).2 = .error e →
        ∃ ev ∈ (run_commands env cmds).1, isFatalEv ev = true)
    ∧ run_commands envIdx1Fails cmdsParThenFail
        = ([.spawn 0, .seqStart 1, .seqFinish 1 true],
           .error "Command `false` failed: exit status: 1") := by
  refine ⟨?_, ?_, by decide⟩
  · intro env cmds
    simpa [run_commands] using runCmdsAux_noEventAfterFatal env (enumFrom 0 cmds) []
  · intro env cmds e he
    have h1 := runCmdsAux_error_mem env (enumFrom 0 cmds) [] e
      (by simpa [run_commands] using he)
    simpa [run_commands] using h1

/-- Witness for C2: the amended theorem applied at the concrete example. -/
theorem C2_fatal_failure_skips_pending_joins_witness :
    (run_commands envIdx1Fails cmdsParThenFail).2
        = .error "Command `false` failed: exit status: 1"
    ∧ ∃ ev ∈ (run_commands envIdx1Fails cmdsParThenFail).1, isFatalEv ev = true :=
  ⟨by decide,
   C2_fatal_failure_skips_pending_joins.2.1 envIdx1Fails cmdsParThenFail
     "Command `false` failed: exit status: 1" (by decide)⟩

/-! ## Claim C7 -/

/-- C7: a task whose `run` returns an error is caught at the steal-loop
boundary: the worker logs the task's start, the error, and the task's
finish, ends in exactly the state it would be in had the task succeeded
(so no other task is affected), and processes the rest of its steal script
unchanged — the loop is a total function, so no task failure terminates
the worker. -/
theorem C7_worker_survives_task_failure :
    ∀ (st : WorkerState) (t : Task) (e : String) (scr : List Steal),
      (task_stealer_step st (.success t (.error e))).2
          = [.runningTask t.id t.name, .taskError e, .finishedTask t.id]
      ∧ (task_stealer_step st (.success t (.error e))).1
          = (task_stealer_step st (.success t (.ok ()))).1
      ∧ task_stealer st (Steal.success t (.error e) :: scr)
          = ((task_stealer (task_stealer_step st (.success t (.error e))).1 scr).1,
             (task_stealer_step st (.success t (.error e))).2 ++
               (task_stealer (task_stealer_step st (.success t (.error e))).1 scr).2) := by
  intro st t e scr
  refine ⟨rfl, rfl, ?_⟩
  simp [task_stealer]

/-! ## Claim C8 -/

/-- C8 (counterexample): the claim that on the Contended/Retry outcome the
worker retries "emitting no log event" is false: the `Steal::Retry` arm of
`task_stealer` emits a `warn!("Retrying")` log event. -/
theorem C8_counterexample :
    (task_stealer_step ⟨0, true⟩ .retry).2 ≠ ([] : List WLog) := by
  decide

/-- C8 (amended): on the Contended/Retry outcome the worker retries the take
operation immediately with its state unchanged — no backoff step is taken
and the log-once flag is untouched — but it does emit one warning log event
("Retrying") on each retry. -/
theorem C8_retry_immediate_with_warning :
    ∀ (st : WorkerState) (scr : List Steal),
      task_stealer_step st .retry = (st, [.retrying])
      ∧ task_stealer st (Steal.retry :: scr)
          = ((task_stealer st scr).1, .retrying :: (task_stealer st scr).2) := by
  intro st scr
  exact ⟨rfl, by simp [task_stealer, task_stealer_step]⟩
/-! ## Startup and identifier lemmas -/

theorem wrap32_eq_self (x : Int) (h1 : -2 ^ 31 ≤ x) (h2 : x < 2 ^ 31) :
    wrap32 x = x := by
  unfold wrap32
  have h3 : (0 : Int) ≤ x + 2 ^ 31 := by omega
  have h4 : x + 2 ^ 31 < 2 ^ 32 := by omega
  rw [Int.emod_eq_of_lt h3 h4]
  omega

theorem range_map_shift (n : Nat) (a : Int) :
    (List.range (n + 1)).map (fun k => a + Int.ofNat k)
      = a :: (List.range n).map (fun k => (a + 1) + Int.ofNat k) := by
  rw [List.range_succ_eq_map]
  simp only [List.map_cons, List.map_map, List.cons.injEq]
  constructor
  · simp
  · have hfun : ((fun k : Nat => a + Int.ofNat k) ∘ Nat.succ)
        = fun k : Nat => (a + 1) + Int.ofNat k := by
      funext k
      simp [Function.comp, Int.ofNat_succ]
      ring
    rw [hfun]

theorem pushLoop_good_ids :
    ∀ (files : List FileData) (next : Int),
      (∀ f ∈ files, decodesOK f = true) →
      0 ≤ next → next + files.length ≤ 2 ^ 31 →
      pushedIds (pushLoop files next).1
          = (List.range files.length).map (fun k => next + Int.ofNat k)
      ∧ (pushLoop files next).2 = .ok () := by
  intro files
  induction files with
  | nil =>
    intro next _ _ _
    exact ⟨by simp [pushLoop, pushedIds], rfl⟩
  | cons f rest ih =>
    intro next hgood h0 hle
    have hf := hgood f (List.mem_cons_self f rest)
    cases f with
    | unreadable e => simp [decodesOK] at hf
    | undecodable e => simp [decodesOK] at hf
    | parsed tf =>
      rcases hm : commandsOfTaskFile tf.commands with _ | cs
      · rw [decodesOK, hm] at hf
        simp at hf
      · rw [List.length_cons] at hle
        have hle' : next + (rest.length : Int) + 1 ≤ 2 ^ 31 := by
          push_cast at hle
          omega
        cases rest with
        | nil =>
          refine ⟨?_, by simp [pushLoop, from_task_file, hm]⟩
          simp [pushLoop, from_task_file, hm, pushedIds, List.range_succ]
        | cons g rest' =>
          have hw : wrap32 (next + 1) = next + 1 := by
            apply wrap32_eq_self
            · omega
            · have hlen1 : (1 : Int) ≤ ((g :: rest').length : Int) := by
                have h11 : 1 ≤ (g :: rest').length := by simp
                exact_mod_cast h11
              omega
          have ihres := ih (next + 1)
            (fun x hx => hgood x (List.mem_cons_of_mem _ hx))
            (by omega) (by omega)
          rcases hpl : pushLoop (g :: rest') (next + 1) with ⟨tr, r⟩
          rw [hpl] at ihres
          constructor
          · rw [pushLoop]
            simp only [from_task_file, hm, hw, hpl]
            rw [List.length_cons, range_map_shift]
            simpa [pushedIds] using ihres.1
          · rw [pushLoop]
            simp only [from_task_file, hm, hw, hpl]
            exact ihres.2

theorem pushedIds_of_workers :
    ∀ (l : List Nat), pushedIds (l.map StartupEvent.workerStarted) = [] := by
  intro l
  induction l with
  | nil => rfl
  | cons i l ih => simp only [List.map_cons, pushedIds, List.filterMap_cons]; exact ih

theorem pushLoop_stops_at_first_bad :
    ∀ (files : List FileData) (next : Int),
      (∃ f ∈ files, decodesOK f = false) →
      ∃ e, pushLoop files next
          = ((pushLoop (files.takeWhile decodesOK) next).1, .error e) := by
  intro files
  induction files with
  | nil => intro next h; simp at h
  | cons f rest ih =>
    intro next hbad
    by_cases hf : decodesOK f = true
    · obtain ⟨b, hb, hbdec⟩ := hbad
      rw [List.mem_cons] at hb
      have hbrest : b ∈ rest := by
        rcases hb with hb | hb
        · subst hb; rw [hf] at hbdec; cases hbdec
        · exact hb
      cases f with
      | unreadable e => simp [decodesOK] at hf
      | undecodable e => simp [decodesOK] at hf
      | parsed tf =>
        rcases hm : commandsOfTaskFile tf.commands with _ | cs
        · rw [decodesOK, hm] at hf
          simp at hf
        · obtain ⟨e, he⟩ := ih (wrap32 (next + 1)) ⟨b, hbrest, hbdec⟩
          refine ⟨e, ?_⟩
          rw [List.takeWhile_cons_of_pos hf]
          rw [pushLoop, pushLoop]
          simp only [from_task_file, hm, he]
    · have hf' : decodesOK f = false := by
        cases hdec : decodesOK f
        · rfl
        · exact absurd hdec hf
      rw [List.takeWhile_cons_of_neg (by simp [hf'])]
      cases f with
      | unreadable e => exact ⟨e, by simp [pushLoop]⟩
      | undecodable e => exact ⟨e, by simp [pushLoop]⟩
      | parsed tf =>
        rcases hm : commandsOfTaskFile tf.commands with _ | cs
        · exact ⟨"panicked converting a command with no shell text",
            by simp [pushLoop, from_task_file, hm]⟩
        · rw [decodesOK, hm] at hf'
          simp at hf'
theorem pushedIds_append (A B : List StartupEvent) :
    pushedIds (A ++ B) = pushedIds A ++ pushedIds B := by
  simp [pushedIds, List.filterMap_append]

/-! ## Claim C3 -/

/-- C3 (counterexample): the claim that a decode failure "aborts the entire
startup before any worker begins running, and no task from the batch is
executed" is false: with one worker and a directory whose first file decodes
and whose second is invalid toml, `run` has already started the worker and
pushed the first task to the already-consuming queue before it hits the
failure. -/
theorem C3_counterexample :
    startupAbortsCleanly 1 (.ok filesGoodThenBad) = false := by
  decide

/-- C3 (amended): an unreadable definition source or an undecodable record
does abort the whole startup with an error — loading stops at the first
failing record, and no task from that record onward is created or pushed —
but the worker threads have already been started before loading begins, and
the tasks of the records preceding the failure have already been pushed to
the queue those workers consume, so they may execute before the process
aborts. -/
theorem C3_startup_aborts_at_first_failure :
    (∀ (threads : Nat) (e : String),
      startup threads (.error e)
        = ((List.range threads).map StartupEvent.workerStarted, .error e))
    ∧ (∀ (threads : Nat) (files : List FileData),
        (∃ f ∈ files, decodesOK f = false) →
        ∃ e, startup threads (.ok files)
          = ((List.range threads).map StartupEvent.workerStarted
              ++ (pushLoop (files.takeWhile decodesOK) 0).1, .error e)) := by
  constructor
  · intro threads e
    rfl
  · intro threads files hbad
    obtain ⟨e, he⟩ := pushLoop_stops_at_first_bad files 0 hbad
    exact ⟨e, by simp [startup, he]⟩

/-- Witness for C3: the amended theorem applied to one worker and the
good-then-undecodable directory. -/
theorem C3_startup_aborts_at_first_failure_witness :
    (∃ f ∈ filesGoodThenBad, decodesOK f = false)
    ∧ ∃ e, startup 1 (.ok filesGoodThenBad)
        = ((List.range 1).map StartupEvent.workerStarted
            ++ (pushLoop (filesGoodThenBad.takeWhile decodesOK) 0).1, .error e) :=
  ⟨by decide, C3_startup_aborts_at_first_failure.2 1 filesGoodThenBad (by decide)⟩

/-! ## Claim C6 -/

/-- C6: for a batch of K definitions that all decode, loaded in provider
order, the identifiers pushed during startup are exactly the list
[0, 1, ..., K-1] (so they form the set {0,...,K-1}, strictly increasing in
submission order, with no reuse), independently of the configured worker
count `threads`, and startup succeeds.  The bound `K ≤ 2^31` keeps the
`AtomicI32` id counter from wrapping. -/
theorem C6_task_ids_are_initial_segment :
    ∀ (threads : Nat) (files : List FileData),
      (∀ f ∈ files, decodesOK f = true) →
      (files.length : Int) ≤ 2 ^ 31 →
      pushedIds (startup threads (.ok files)).1
          = (List.range files.length).map Int.ofNat
      ∧ (startup threads (.ok files)).2 = .ok () := by
  intro threads files hgood hle
  have h0le : (0 : Int) + (files.length : Int) ≤ 2 ^ 31 := by omega
  have h1 := pushLoop_good_ids files 0 hgood le_rfl h0le
  rcases hpl : pushLoop files 0 with ⟨tr, r⟩
  rw [hpl] at h1
  have hstart : startup threads (.ok files)
      = ((List.range threads).map StartupEvent.workerStarted ++ tr, r) := by
    simp [startup, hpl]
  rw [hstart]
  refine ⟨?_, h1.2⟩
  show pushedIds ((List.range threads).map StartupEvent.workerStarted ++ tr) = _
  rw [pushedIds_append, pushedIds_of_workers, List.nil_append, h1.1]
  simp

/-- Witness for C6: three decodable files, two workers. -/
theorem C6_task_ids_are_initial_segment_witness :
    (∀ f ∈ filesThreeGood, decodesOK f = true)
    ∧ ((filesThreeGood.length : Int) ≤ 2 ^ 31)
    ∧ (pushedIds (startup 2 (.ok filesThreeGood)).1
          = (List.range filesThreeGood.length).map Int.ofNat
      ∧ (startup 2 (.ok filesThreeGood)).2 = .ok ()) :=
  ⟨by decide, by decide,
   C6_task_ids_are_initial_segment 2 filesThreeGood (by decide) (by decide)⟩
/-! ## Coverage and loop lemmas -/

theorem enumFrom_mem (cs : List Command) :
    ∀ (n i : Nat), i < cs.length → ∃ c, (n + i, c) ∈ enumFrom n cs := by
  induction cs with
  | nil => intro n i h; simp at h
  | cons c cs ih =>
    intro n i h
    cases i with
    | zero => exact ⟨c, by simp [enumFrom]⟩
    | succ i' =>
      obtain ⟨c', hc⟩ := ih (n + 1) i' (by simpa using h)
      refine ⟨c', ?_⟩
      rw [enumFrom]
      have hni : n + (i' + 1) = (n + 1) + i' := by omega
      rw [hni]
      exact List.mem_cons_of_mem _ hc

theorem runCmdsAux_ok_invokes_all (env : Nat → CmdResult) :
    ∀ (l pending : List (Nat × Command)),
      (runCmdsAux env l pending).2 = .ok () →
      ∀ p ∈ l, ∃ e ∈ (runCmdsAux env l pending).1,
        isInvocation e = true ∧ e.idx = p.1 := by
  intro l
  induction l with
  | nil => intro pending _ p hp; simp at hp
  | cons q rest ih =>
    intro pending hok p hp
    obtain ⟨i, c⟩ := q
    rw [List.mem_cons] at hp
    by_cases hpar : c.isParallel
    · rcases ha : runCmdsAux env rest (pending ++ [(i, c)]) with ⟨tr, r⟩
      rw [runCmdsAux] at hok ⊢
      simp only [hpar, if_true, ha] at hok ⊢
      rcases hp with hp | hp
      · subst hp
        exact ⟨.spawn i, List.mem_cons_self _ _, rfl, rfl⟩
      · obtain ⟨e, he, hinv, hidx⟩ := ih (pending ++ [(i, c)]) (by rw [ha]; exact hok) p hp
        rw [ha] at he
        exact ⟨e, List.mem_cons_of_mem _ he, hinv, hidx⟩
    · rcases henv : env i with e' | code
      · rw [runCmdsAux] at hok
        simp [hpar, henv] at hok
      · by_cases hf : seqFatalCheck c code
        · rw [runCmdsAux] at hok
          simp [hpar, henv, hf] at hok
        · rcases hj : joinAll env pending with ⟨jtr, jr⟩
          rcases jr with e' | u
          · rw [runCmdsAux] at hok
            simp [hpar, henv, hf, hj] at hok
          · cases u
            rcases ha : runCmdsAux env rest [] with ⟨tr2, r2⟩
            rw [runCmdsAux] at hok ⊢
            simp only [hpar, henv, hf, hj, ha] at hok ⊢
            rcases hp with hp | hp
            · subst hp
              exact ⟨.seqStart i, List.mem_cons_self _ _, rfl, rfl⟩
            · simp at hok
              obtain ⟨e, he, hinv, hidx⟩ := ih [] (by rw [ha]; simpa using hok) p hp
              rw [ha] at he
              refine ⟨e, ?_, hinv, hidx⟩
              refine List.mem_cons_of_mem _ (List.mem_cons_of_mem _ ?_)
              exact List.mem_append_right _ he

theorem run_commands_ok_covers (env : Nat → CmdResult) (cmds : List Command)
    (hok : (run_commands env cmds).2 = .ok ()) :
    ∀ i < cmds.length, ∃ e ∈ (run_commands env cmds).1,
      isInvocation e = true ∧ e.idx = i := by
  intro i hi
  obtain ⟨c, hc⟩ := enumFrom_mem cmds 0 i hi
  rw [Nat.zero_add] at hc
  exact runCmdsAux_ok_invokes_all env (enumFrom 0 cmds) []
    (by simpa [run_commands] using hok) (i, c) hc

theorem runLoop_ok_iterations (env : Nat → Nat → CmdResult) (cmds : List Command)
    (H : ∀ k, (run_commands (env k) cmds).2 = .ok ()) :
    ∀ (rep fuel iter : Nat), rep ≤ fuel →
      runLoop env cmds false fuel iter rep
        = some ((List.range rep).map fun k => (run_commands (env (iter + k)) cmds).1,
            .ok ()) := by
  intro rep
  induction rep with
  | zero =>
    intro fuel iter _
    cases fuel with
    | zero => simp [runLoop]
    | succ f => simp [runLoop]
  | succ rep ih =>
    intro fuel iter h
    cases fuel with
    | zero => omega
    | succ f =>
      rcases hrc : run_commands (env iter) cmds with ⟨tr, r⟩
      have hko := H iter
      rw [hrc] at hko
      simp at hko
      subst hko
      have hih := ih f (iter + 1) (by omega)
      have hsh : (List.range (rep + 1)).map
            (fun k => (run_commands (env (iter + k)) cmds).1)
          = (run_commands (env iter) cmds).1 ::
            (List.range rep).map (fun k => (run_commands (env ((iter + 1) + k)) cmds).1) := by
        rw [List.range_succ_eq_map]
        simp only [List.map_cons, List.map_map, Nat.add_zero, List.cons.injEq]
        refine ⟨by trivial, ?_⟩
        have hfe : ((fun k => (run_commands (env (iter + k)) cmds).1) ∘ Nat.succ)
            = fun k => (run_commands (env ((iter + 1) + k)) cmds).1 := by
          funext k
          have hik : iter + Nat.succ k = (iter + 1) + k := by omega
          simp [Function.comp, hik]
        rw [hfe]
      rw [runLoop, hsh, hrc]
      simp [hih]

theorem runLoop_infinite (env : Nat → Nat → CmdResult) (cmds : List Command)
    (H : ∀ k, (run_commands (env k) cmds).2 = .ok ()) :
    ∀ (fuel iter : Nat), runLoop env cmds true fuel iter 0 = none := by
  intro fuel
  induction fuel with
  | zero => intro iter; simp [runLoop]
  | succ f ih =>
    intro iter
    rcases hrc : run_commands (env iter) cmds with ⟨tr, r⟩
    have hko := H iter
    rw [hrc] at hko
    simp at hko
    subst hko
    rw [runLoop]
    simp [hrc, ih]

theorem runLoop_terminates (env : Nat → Nat → CmdResult) (cmds : List Command) :
    ∀ (rep fuel iter : Nat), rep ≤ fuel →
      ∃ trs res, runLoop env cmds false fuel iter rep = some (trs, res)
        ∧ trs.length ≤ rep := by
  intro rep
  induction rep with
  | zero =>
    intro fuel iter _
    cases fuel with
    | zero => exact ⟨[], .ok (), by simp [runLoop], by simp⟩
    | succ f => exact ⟨[], .ok (), by simp [runLoop], by simp⟩
  | succ rep ih =>
    intro fuel iter h
    cases fuel with
    | zero => omega
    | succ f =>
      rcases hrc : run_commands (env iter) cmds with ⟨tr, r⟩
      cases r with
      | error e =>
        refine ⟨[tr], .error e, ?_, by simp⟩
        rw [runLoop]
        simp [hrc]
      | ok u =>
        cases u
        obtain ⟨trs, res, heq, hlen⟩ := ih f (iter + 1) (by omega)
        refine ⟨tr :: trs, res, ?_, by simpa using hlen⟩
        rw [runLoop]
        simp [hrc, heq]
/-! ## Fatal sequential failures stop the iteration -/

theorem runCmdsAux_nonjoin_idx_ge (env : Nat → CmdResult) :
    ∀ (cs : List Command) (n : Nat) (pending : List (Nat × Command)),
      ∀ e ∈ (runCmdsAux env (enumFrom n cs) pending).1,
        isJoin e = false → n ≤ e.idx := by
  intro cs
  induction cs with
  | nil =>
    intro n pending e he hj
    rw [enumFrom, runCmdsAux] at he
    have hjo := joinAll_only_joins env pending e he
    rw [hjo] at hj
    cases hj
  | cons c cs ih =>
    intro n pending e he hj
    rw [enumFrom, runCmdsAux] at he
    by_cases hp : c.isParallel
    · rcases ha : runCmdsAux env (enumFrom (n + 1) cs) (pending ++ [(n, c)]) with ⟨tr, r⟩
      simp only [hp, if_true, ha] at he
      rw [List.mem_cons] at he
      rcases he with he | he
      · subst he
        exact le_refl n
      · have hge := ih (n + 1) (pending ++ [(n, c)]) e (by rw [ha]; exact he) hj
        omega
    · rcases henv : env n with e' | code
      · simp only [hp, henv, if_false, Bool.false_eq_true] at he
        simp at he
        rcases he with he | he <;> (subst he; simp [Event.idx])
      · by_cases hf : seqFatalCheck c code
        · simp only [hp, henv, hf, if_true, Bool.false_eq_true, if_false] at he
          simp at he
          rcases he with he | he <;> (subst he; simp [Event.idx])
        · rcases hjp : joinAll env pending with ⟨jtr, jr⟩
          rcases jr with e' | u
          · simp only [hp, henv, hf, hjp, Bool.false_eq_true, if_false] at he
            simp only [List.mem_cons] at he
            rcases he with he | he | he
            · subst he; simp [Event.idx]
            · subst he; simp [Event.idx]
            · have hjo := joinAll_only_joins env pending e (by rw [hjp]; exact he)
              rw [hjo] at hj
              cases hj
          · cases u
            rcases ha : runCmdsAux env (enumFrom (n + 1) cs) [] with ⟨tr2, r2⟩
            simp only [hp, henv, hf, hjp, ha, Bool.false_eq_true, if_false] at he
            simp only [List.mem_cons, List.mem_append] at he
            rcases he with he | he | he | he
            · subst he; simp [Event.idx]
            · subst he; simp [Event.idx]
            · have hjo := joinAll_only_joins env pending e (by rw [hjp]; exact he)
              rw [hjo] at hj
              cases hj
            · have hge := ih (n + 1) [] e (by rw [ha]; exact he) hj
              omega

theorem runCmdsAux_fatal_no_later (env : Nat → CmdResult) :
    ∀ (cs : List Command) (n : Nat) (pending : List (Nat × Command)) (i j : Nat),
      i < j →
      (Event.seqFinish i true ∈ (runCmdsAux env (enumFrom n cs) pending).1
        ∨ Event.seqLaunchFail i ∈ (runCmdsAux env (enumFrom n cs) pending).1) →
      Event.spawn j ∉ (runCmdsAux env (enumFrom n cs) pending).1
      ∧ Event.seqStart j ∉ (runCmdsAux env (enumFrom n cs) pending).1 := by
  intro cs
  induction cs with
  | nil =>
    intro n pending i j hij hfat
    rw [enumFrom, runCmdsAux] at hfat
    exfalso
    rcases hfat with hfat | hfat
    · have hjo := joinAll_only_joins env pending _ hfat
      simp [isJoin] at hjo
    · have hjo := joinAll_only_joins env pending _ hfat
      simp [isJoin] at hjo
  | cons c cs ih =>
    intro n pending i j hij hfat
    rw [enumFrom, runCmdsAux] at hfat ⊢
    by_cases hp : c.isParallel
    · rcases ha : runCmdsAux env (enumFrom (n + 1) cs) (pending ++ [(n, c)]) with ⟨tr, r⟩
      simp only [hp, if_true, ha] at hfat ⊢
      have hfat' : Event.seqFinish i true ∈ tr ∨ Event.seqLaunchFail i ∈ tr := by
        rcases hfat with hfat | hfat
        · rw [List.mem_cons] at hfat
          rcases hfat with h | h
          · cases h
          · exact Or.inl h
        · rw [List.mem_cons] at hfat
          rcases hfat with h | h
          · cases h
          · exact Or.inr h
      have hni : n + 1 ≤ i := by
        rcases hfat' with h | h
        · exact runCmdsAux_nonjoin_idx_ge env cs (n + 1) (pending ++ [(n, c)])
            (.seqFinish i true) (by rw [ha]; exact h) rfl
        · exact runCmdsAux_nonjoin_idx_ge env cs (n + 1) (pending ++ [(n, c)])
            (.seqLaunchFail i) (by rw [ha]; exact h) rfl
      have hrec := ih (n + 1) (pending ++ [(n, c)]) i j hij (by rw [ha]; exact hfat')
      rw [ha] at hrec
      constructor
      · intro hsp
        rw [List.mem_cons] at hsp
        rcases hsp with h | h
        · injection h with hjn
          omega
        · exact hrec.1 h
      · intro hss
        rw [List.mem_cons] at hss
        rcases hss with h | h
        · cases h
        · exact hrec.2 h
    · rcases henv : env n with e' | code
      · simp only [hp, henv, Bool.false_eq_true, if_false] at hfat ⊢
        have hi : i = n := by
          rcases hfat with hfat | hfat
          · simp at hfat
          · simp at hfat
            exact hfat
        subst hi
        constructor
        · intro h; simp at h
        · intro h
          simp at h
          omega
      · by_cases hf : seqFatalCheck c code
        · simp only [hp, henv, hf, if_true, Bool.false_eq_true, if_false] at hfat ⊢
          have hi : i = n := by
            rcases hfat with hfat | hfat
            · simp at hfat
              exact hfat
            · simp at hfat
          subst hi
          constructor
          · intro h; simp at h
          · intro h
            simp at h
            omega
        · rcases hjp : joinAll env pending with ⟨jtr, jr⟩
          rcases jr with e' | u
          · simp only [hp, henv, hf, hjp, Bool.false_eq_true, if_false] at hfat ⊢
            exfalso
            rcases hfat with hfat | hfat
            · simp only [List.mem_cons] at hfat
              rcases hfat with h | h | h
              · cases h
              · simp at h
              · have hjo := joinAll_only_joins env pending _ (by rw [hjp]; exact h)
                simp [isJoin] at hjo
            · simp only [List.mem_cons] at hfat
              rcases hfat with h | h | h
              · cases h
              · cases h
              · have hjo := joinAll_only_joins env pending _ (by rw [hjp]; exact h)
                simp [isJoin] at hjo
          · cases u
            rcases ha : runCmdsAux env (enumFrom (n + 1) cs) [] with ⟨tr2, r2⟩
            simp only [hp, henv, hf, hjp, ha, Bool.false_eq_true, if_false] at hfat ⊢
            have hfat' : Event.seqFinish i true ∈ tr2 ∨ Event.seqLaunchFail i ∈ tr2 := by
              rcases hfat with hfat | hfat
              · simp only [List.mem_cons, List.mem_append] at hfat
                rcases hfat with h | h | h | h
                · cases h
                · simp at h
                · exfalso
                  have hjo := joinAll_only_joins env pending _ (by rw [hjp]; exact h)
                  simp [isJoin] at hjo
                · exact Or.inl h
              · simp only [List.mem_cons, List.mem_append] at hfat
                rcases hfat with h | h | h | h
                · cases h
                · cases h
                · exfalso
                  have hjo := joinAll_only_joins env pending _ (by rw [hjp]; exact h)
                  simp [isJoin] at hjo
                · exact Or.inr h
            have hni : n + 1 ≤ i := by
              rcases hfat' with h | h
              · exact runCmdsAux_nonjoin_idx_ge env cs (n + 1) []
                  (.seqFinish i true) (by rw [ha]; exact h) rfl
              · exact runCmdsAux_nonjoin_idx_ge env cs (n + 1) []
                  (.seqLaunchFail i) (by rw [ha]; exact h) rfl
            have hrec := ih (n + 1) [] i j hij (by rw [ha]; exact hfat')
            rw [ha] at hrec
            constructor
            · intro hsp
              simp only [List.mem_cons, List.mem_append] at hsp
              rcases hsp with h | h | h | h
              · cases h
              · cases h
              · have hjo := joinAll_only_joins env pending _ (by rw [hjp]; exact h)
                simp [isJoin] at hjo
              · exact hrec.1 h
            · intro hss
              simp only [List.mem_cons, List.mem_append] at hss
              rcases hss with h | h | h | h
              · injection h with hjn
                omega
              · cases h
              · have hjo := joinAll_only_joins env pending _ (by rw [hjp]; exact h)
                simp [isJoin] at hjo
              · exact hrec.2 h

theorem runLoop_first_iteration_error (env : Nat → Nat → CmdResult) (cmds : List Command)
    (fuel iter rep : Nat) (e : String) (hrep : 0 < rep)
    (herr : (run_commands (env iter) cmds).2 = .error e) :
    runLoop env cmds false (fuel + 1) iter rep
      = some ([(run_commands (env iter) cmds).1], .error e) := by
  rcases hrc : run_commands (env iter) cmds with ⟨tr, r⟩
  rw [hrc] at herr
  simp at herr
  subst herr
  rw [runLoop]
  simp [hrc, hrep]
/-! ## Ignored failures are control-flow successes -/

theorem enumFrom_mem_eq (cs : List Command) :
    ∀ (n : Nat) (p : Nat × Command), p ∈ enumFrom n cs →
      cs.get? (p.1 - n) = some p.2 ∧ n ≤ p.1 := by
  induction cs with
  | nil => intro n p hp; simp [enumFrom] at hp
  | cons c cs ih =>
    intro n p hp
    rw [enumFrom, List.mem_cons] at hp
    rcases hp with hp | hp
    · subst hp
      simp
    · obtain ⟨h1, h2⟩ := ih (n + 1) p hp
      constructor
      · have hsub : p.1 - n = (p.1 - (n + 1)) + 1 := by omega
        rw [hsub]
        simpa using h1
      · omega

theorem joinAll_ignored_env_irrelevant (env1 env2 : Nat → CmdResult) (i : Nat)
    (hoff : ∀ j, j ≠ i → env1 j = env2 j)
    (h1 : ∃ code1, env1 i = .exited code1)
    (h2 : ∃ code2, env2 i = .exited code2) :
    ∀ (pending : List (Nat × Command)),
      (∀ p ∈ pending, p.1 = i → p.2.ignoreFailure = true) →
      joinAll env1 pending = joinAll env2 pending := by
  intro pending
  induction pending with
  | nil => intro _; rfl
  | cons p rest ihp =>
    intro hpend
    obtain ⟨j, c⟩ := p
    have hrest := fun q hq => hpend q (List.mem_cons_of_mem _ hq)
    by_cases hji : j = i
    · subst hji
      have hig : c.ignoreFailure = true := hpend (j, c) (List.mem_cons_self _ _) rfl
      obtain ⟨c1, hc1⟩ := h1
      obtain ⟨c2, hc2⟩ := h2
      simp only [joinAll, hc1, hc2, parOutcome, hig, if_true, ihp hrest]
    · simp only [joinAll, hoff j hji, ihp hrest]

theorem runCmdsAux_ignored_env_irrelevant (env1 env2 : Nat → CmdResult) (i : Nat)
    (hoff : ∀ j, j ≠ i → env1 j = env2 j)
    (h1 : ∃ code1, env1 i = .exited code1)
    (h2 : ∃ code2, env2 i = .exited code2) :
    ∀ (l pending : List (Nat × Command)),
      (∀ p ∈ l, p.1 = i → p.2.ignoreFailure = true) →
      (∀ p ∈ pending, p.1 = i → p.2.ignoreFailure = true) →
      runCmdsAux env1 l pending = runCmdsAux env2 l pending := by
  intro l
  induction l with
  | nil =>
    intro pending _ hpend
    simp only [runCmdsAux]
    exact joinAll_ignored_env_irrelevant env1 env2 i hoff h1 h2 pending hpend
  | cons q rest ih =>
    intro pending hl hpend
    obtain ⟨n, c⟩ := q
    have hrest := fun p hp => hl p (List.mem_cons_of_mem _ hp)
    have hjeq := joinAll_ignored_env_irrelevant env1 env2 i hoff h1 h2 pending hpend
    by_cases hp : c.isParallel
    · have hpend' : ∀ p ∈ pending ++ [(n, c)], p.1 = i → p.2.ignoreFailure = true := by
        intro p hpm hpi
        rcases List.mem_append.mp hpm with hmm | hmm
        · exact hpend p hmm hpi
        · simp at hmm
          subst hmm
          exact hl (n, c) (List.mem_cons_self _ _) hpi
      simp only [runCmdsAux, hp, if_true, ih (pending ++ [(n, c)]) hrest hpend']
    · have hempty : ∀ p ∈ ([] : List (Nat × Command)), p.1 = i → p.2.ignoreFailure = true := by
        intro p hpm
        simp at hpm
      by_cases hni : n = i
      · subst hni
        have hig : c.ignoreFailure = true := hl (n, c) (List.mem_cons_self _ _) rfl
        obtain ⟨c1, hc1⟩ := h1
        obtain ⟨c2, hc2⟩ := h2
        have hsf1 : seqFatalCheck c c1 = false := by simp [seqFatalCheck, hig]
        have hsf2 : seqFatalCheck c c2 = false := by simp [seqFatalCheck, hig]
        simp only [runCmdsAux, hp, hc1, hc2, hsf1, hsf2, Bool.false_eq_true, if_false,
          hjeq, ih [] hrest hempty]
      · simp only [runCmdsAux, hp, Bool.false_eq_true, if_false, hoff n hni, hjeq,
          ih [] hrest hempty]

theorem run_commands_ignored_env_irrelevant (env : Nat → CmdResult)
    (cmds : List Command) (i : Nat) (c : Command) (code : Nat)
    (hc : cmds.get? i = some c) (hig : c.ignoreFailure = true) :
    run_commands (updEnv env i (.exited code)) cmds
      = run_commands (updEnv env i (.exited 0)) cmds := by
  apply runCmdsAux_ignored_env_irrelevant
    (updEnv env i (.exited code)) (updEnv env i (.exited 0)) i
  · intro j hj
    simp [updEnv, hj]
  · exact ⟨code, by simp [updEnv]⟩
  · exact ⟨0, by simp [updEnv]⟩
  · intro p hpm hpi
    obtain ⟨h1, _⟩ := enumFrom_mem_eq cmds 0 p hpm
    rw [hpi, Nat.sub_zero, hc] at h1
    injection h1 with h1
    rw [← h1]
    exact hig
  · intro p hpm
    simp at hpm
theorem runLoop_ignored_env_irrelevant (env : Nat → Nat → CmdResult)
    (cmds : List Command) (k i : Nat) (c : Command) (code : Nat)
    (hc : cmds.get? i = some c) (hig : c.ignoreFailure = true) :
    ∀ (fuel iter rep : Nat) (isInf : Bool),
      runLoop (updEnv2 env k i (.exited code)) cmds isInf fuel iter rep
        = runLoop (updEnv2 env k i (.exited 0)) cmds isInf fuel iter rep := by
  intro fuel
  induction fuel with
  | zero => intro iter rep isInf; rfl
  | succ f ih =>
    intro iter rep isInf
    have hiter : run_commands (updEnv2 env k i (.exited code) iter) cmds
        = run_commands (updEnv2 env k i (.exited 0) iter) cmds := by
      by_cases hik : iter = k
      · subst hik
        simp only [updEnv2, if_pos rfl]
        exact run_commands_ignored_env_irrelevant (env iter) cmds i c code hc hig
      · simp [updEnv2, hik]
    simp only [runLoop, hiter, ih]

/-! ## Claim C4 -/

/-- C4: with no fatal failure in any iteration, a task with repeat count 0
never exits its loop (for every fuel bound the loop is still running), and a
task with repeat count r ≥ 1 runs exactly r iterations, each iteration being
a full `run_commands` pass in which every command of the sequence is invoked
(spawned or started). -/
theorem C4_repeat_semantics :
    ∀ (t : Task) (env : Nat → Nat → CmdResult),
      (∀ k, (run_commands (env k) t.commands).2 = .ok ()) →
      (t.repeats = 0 → ∀ fuel, t.run env fuel = none)
      ∧ (1 ≤ t.repeats → ∀ fuel, t.repeats ≤ fuel →
          t.run env fuel
            = some ((List.range t.repeats).map
                fun k => (run_commands (env k) t.commands).1, .ok ())
          ∧ ∀ k, ∀ i < t.commands.length,
              ∃ e ∈ (run_commands (env k) t.commands).1,
                isInvocation e = true ∧ e.idx = i) := by
  intro t env H
  constructor
  · intro h0 fuel
    rw [Task.run, h0]
    exact runLoop_infinite env t.commands H fuel 0
  · intro h1 fuel hfu
    constructor
    · have hit := runLoop_ok_iterations env t.commands H t.repeats fuel 0 hfu
      have hbe : (t.repeats == 0) = false := by simp; omega
      rw [Task.run, hbe, hit]
      simp
    · intro k i hi
      exact run_commands_ok_covers (env k) t.commands (H k) i hi

/-- Witness for C4: a repeat-2 task with an always-succeeding command. -/
theorem C4_repeat_semantics_witness :
    (∀ k, (run_commands (env2AllOk k) taskRepeat2.commands).2 = .ok ())
    ∧ (taskRepeat2.run env2AllOk 2
        = some ((List.range taskRepeat2.repeats).map
            fun k => (run_commands (env2AllOk k) taskRepeat2.commands).1, .ok ())
      ∧ ∀ k, ∀ i < taskRepeat2.commands.length,
          ∃ e ∈ (run_commands (env2AllOk k) taskRepeat2.commands).1,
            isInvocation e = true ∧ e.idx = i) :=
  ⟨fun _ => rfl,
   (C4_repeat_semantics taskRepeat2 env2AllOk fun _ => rfl).2 (by decide) 2 (by decide)⟩

/-! ## Claim C5 -/

/-- C5: when a sequential command fails fatally (its non-ignored failure
check fires, `seqFinish i true`, or it fails to launch, `seqLaunchFail i`),
no later command of that iteration is invoked — neither spawned nor started;
and when a task's first iteration returns an error, the whole run stops with
exactly that one iteration executed, so with repeat = 3 and a single
always-failing non-ignored command only iteration 1 runs. -/
theorem C5_fatal_sequential_failure_stops_task :
    (∀ (env : Nat → CmdResult) (cmds : List Command) (i j : Nat),
      i < j →
      (Event.seqFinish i true ∈ (run_commands env cmds).1
        ∨ Event.seqLaunchFail i ∈ (run_commands env cmds).1) →
      Event.spawn j ∉ (run_commands env cmds).1
      ∧ Event.seqStart j ∉ (run_commands env cmds).1)
    ∧ (∀ (t : Task) (env : Nat → Nat → CmdResult) (fuel : Nat) (e : String),
        0 < t.repeats →
        (run_commands (env 0) t.commands).2 = .error e →
        t.run env (fuel + 1)
          = some ([(run_commands (env 0) t.commands).1], .error e)) := by
  constructor
  · intro env cmds i j hij hfat
    exact runCmdsAux_fatal_no_later env cmds 0 [] i j hij hfat
  · intro t env fuel e hrep herr
    have hbe : (t.repeats == 0) = false := by simp; omega
    rw [Task.run, hbe]
    exact runLoop_first_iteration_error env t.commands fuel 0 t.repeats e hrep herr

/-- Witness for C5: the spec's two examples — [sequential X failing,
sequential Y] never invokes Y, and the repeat-3 always-failing task executes
exactly one iteration. -/
theorem C5_fatal_sequential_failure_stops_task_witness :
    ((0 : Nat) < 1
      ∧ (Event.seqFinish 0 true ∈ (run_commands envIdx0Fails cmdsFailThenSeq).1
          ∨ Event.seqLaunchFail 0 ∈ (run_commands envIdx0Fails cmdsFailThenSeq).1)
      ∧ Event.spawn 1 ∉ (run_commands envIdx0Fails cmdsFailThenSeq).1
      ∧ Event.seqStart 1 ∉ (run_commands envIdx0Fails cmdsFailThenSeq).1)
    ∧ (0 < taskRepeat3.repeats
      ∧ (run_commands (env2AllFail 0) taskRepeat3.commands).2
          = .error "Command `false` failed: exit status: 1"
      ∧ taskRepeat3.run env2AllFail 9
          = some ([(run_commands (env2AllFail 0) taskRepeat3.commands).1],
              .error "Command `false` failed: exit status: 1")) :=
  ⟨⟨by decide, by decide,
    C5_fatal_sequential_failure_stops_task.1 envIdx0Fails cmdsFailThenSeq 0 1
      (by decide) (by decide)⟩,
   by decide, by decide,
   C5_fatal_sequential_failure_stops_task.2 taskRepeat3 env2AllFail 8
     "Command `false` failed: exit status: 1" (by decide) (by decide)⟩

/-! ## Claim C9 -/

/-- C9: for a command with `ignore_failure` set whose invocation exits with
any status, the whole observable behaviour — the iteration's trace and
result, and the whole task run — is identical to the behaviour had the
command exited 0: the failure is a success for control-flow purposes. -/
theorem C9_ignored_failure_is_control_flow_success :
    ∀ (cmds : List Command) (i : Nat) (c : Command) (code : Nat),
      cmds.get? i = some c → c.ignoreFailure = true →
      (∀ (env : Nat → CmdResult),
        run_commands (updEnv env i (.exited code)) cmds
          = run_commands (updEnv env i (.exited 0)) cmds)
      ∧ (∀ (t : Task) (env : Nat → Nat → CmdResult) (k fuel : Nat),
          t.commands = cmds →
          t.run (updEnv2 env k i (.exited code)) fuel
            = t.run (updEnv2 env k i (.exited 0)) fuel) := by
  intro cmds i c code hc hig
  constructor
  · intro env
    exact run_commands_ignored_env_irrelevant env cmds i c code hc hig
  · intro t env k fuel ht
    rw [Task.run, Task.run, ht]
    exact runLoop_ignored_env_irrelevant env cmds k i c code hc hig fuel 0 t.repeats _

/-- Witness for C9: an `ignore_failure` command exiting 1 in the middle of a
three-command task behaves exactly as if it had exited 0. -/
theorem C9_ignored_failure_is_control_flow_success_witness :
    cmdsIgnoreMid.get? 1 = some (.Shell "false" true false)
    ∧ (Command.Shell "false" true false).ignoreFailure = true
    ∧ run_commands (updEnv envAllOk 1 (.exited 1)) cmdsIgnoreMid
        = run_commands (updEnv envAllOk 1 (.exited 0)) cmdsIgnoreMid :=
  ⟨by decide, rfl,
   (C9_ignored_failure_is_control_flow_success cmdsIgnoreMid 1
      (.Shell "false" true false) 1 (by decide) rfl).1 envAllOk⟩

/-! ## Claim C10 -/

/-- C10: for any task with repeat count r ≥ 1 and any outcomes of the
individual command invocations (every invocation terminates by assumption of
the model), `Task::run` exits its loop within r iterations: fuel r suffices
and at most r iteration traces are produced, because the remaining-repeat
counter decreases by (saturating) one each iteration. -/
theorem C10_run_terminates_within_repeat_iterations :
    ∀ (t : Task) (env : Nat → Nat → CmdResult) (fuel : Nat),
      1 ≤ t.repeats → t.repeats ≤ fuel →
      ∃ trs res, t.run env fuel = some (trs, res) ∧ trs.length ≤ t.repeats := by
  intro t env fuel h1 h2
  have hbe : (t.repeats == 0) = false := by simp; omega
  obtain ⟨trs, res, heq, hlen⟩ := runLoop_terminates env t.commands t.repeats fuel 0 h2
  refine ⟨trs, res, ?_, hlen⟩
  rw [Task.run, hbe]
  exact heq

/-- Witness for C10: the repeat-3 always-failing task stops within 3
iterations. -/
theorem C10_run_terminates_within_repeat_iterations_witness :
    1 ≤ taskRepeat3.repeats
    ∧ taskRepeat3.repeats ≤ 3
    ∧ ∃ trs res, taskRepeat3.run env2AllFail 3 = some (trs, res)
        ∧ trs.length ≤ taskRepeat3.repeats :=
  ⟨by decide, by decide,
   C10_run_terminates_within_repeat_iterations taskRepeat3 env2AllFail 3
     (by decide) (by decide)⟩

end Tdist
